import Mathlib

/-!
Verification of the kiloc terminal rendering engine (src/kiloc.c, src/kiloc.h).

The C code is shallowly embedded: buffers are lists of rows of cells, C strings
are lists of their non-NUL bytes (as `Nat`s below 256), `uint64_t` arithmetic is
`Nat` arithmetic with explicit `% 2 ^ 64` where the C computation can wrap, and
terminal output is modelled as the `String` the `printf`/`fputs` calls produce.
Out-of-bounds raw pointer accesses (which are undefined behaviour in C) are
tracked by an explicit boolean flag returned alongside the buffer.
-/

namespace Kiloc

/-- A buffer cell, embedding `struct kiloc_cell` from src/kiloc.h: `content`
holds the bytes of one UTF-8 glyph (the bytes before the terminating NUL of the
C `char content[5]` array) and `style` the packed 64-bit style word. -/
structure Cell where
  content : List Nat
  style : Nat
deriving DecidableEq, Repr

/-- A cell buffer: a list of `max_h` rows, each a list of `max_w` cells. -/
abbrev Buffer := List (List Cell)

/-- The blank cell produced by `kiloc_init` / the back-buffer reset in
`kiloc_render`: a single space with style 0. -/
def blankCell : Cell := ⟨[32], 0⟩

/-- A blank `h × w` buffer as built by `kiloc_init`. -/
def blankBuffer (w h : Nat) : Buffer :=
  List.replicate h (List.replicate w blankCell)

/-- Well-formedness of a buffer for canvas size `w × h`: `h` rows of `w`
cells each, exactly the shape `kiloc_init` allocates. -/
def bufWF (w h : Nat) (b : Buffer) : Prop :=
  b.length = h ∧ ∀ r ∈ b, r.length = w

/-- Read the cell at row `y`, column `x` (default `blankCell` out of range). -/
def cellAt (b : Buffer) (y x : Nat) : Cell :=
  (b.getD y []).getD x blankCell

/-- Replace the cell at row `y`, column `x` (no-op out of range). -/
def setCell (b : Buffer) (y x : Nat) (c : Cell) : Buffer :=
  b.set y ((b.getD y []).set x c)

/-- Embeds `_kiloc_get_utf8_len` (src/kiloc.c:86): the byte length 1–4 of the
first UTF-8 scalar judged from its leading byte, or 0 for null/empty input or
an invalid leading byte. -/
def _kiloc_get_utf8_len (s : List Nat) : Nat :=
  match s with
  | [] => 0
  | byte :: _ =>
    if byte = 0 then 0
    else if byte ≤ 0x7F then 1
    else if byte &&& 0xE0 = 0xC0 then 2
    else if byte &&& 0xF0 = 0xE0 then 3
    else if byte &&& 0xF8 = 0xF0 then 4
    else 0

/-- Embeds `kiloc_putchr` (src/kiloc.c:184): writes one UTF-8 glyph into the
back buffer `b`, a no-op when `(x, y)` is outside the `maxW × maxH` canvas or
the glyph is malformed (`_kiloc_get_utf8_len` returns 0). The `strncpy` of
`len` bytes followed by NUL-termination makes the cell content the first
`len` bytes of `content`. -/
def kiloc_putchr (maxW maxH : Nat) (x y : Nat) (content : List Nat)
    (style : Nat) (b : Buffer) : Buffer :=
  if x ≥ maxW ∨ y ≥ maxH then b
  else
    let len := _kiloc_get_utf8_len content
    if len = 0 then b
    else
      let bytes := if len < 5 then content.take len else content.take 4
      setCell b y x ⟨bytes, style⟩

/-- The raw write `k->b_buffer[y][cur_x + 1]` performed by `kiloc_putstr`
for a width-2 glyph (src/kiloc.c:227): it is NOT bounds-checked in the C
code, so the model returns `true` (out-of-bounds access) when the index is
outside the allocated buffer, and otherwise stores an empty-content cell
with the given style. -/
def contWrite (y x : Nat) (style : Nat) (b : Buffer) : Buffer × Bool :=
  if h : y < b.length then
    if x < (b.get ⟨y, h⟩).length then
      (setCell b y x ⟨[], style⟩, false)
    else (b, true)
  else (b, true)

/-- Loop body of `kiloc_putstr` (src/kiloc.c:213): iterates UTF-8 scalars from
column `curX`, writing each glyph via `kiloc_putchr` and, for a glyph of
display width > 1, writing the continuation cell at `curX + 1`. `cw` models
`_kiloc_get_char_width` (src/kiloc.c:107), whose core (`mbtowc`/`wcwidth`)
is libc code outside this repository; the spec states it yields the display
width, 1 or 2 columns. The returned flag records whether any raw
out-of-bounds buffer access happened. -/
def putstrAux (cw : List Nat → Nat) (maxW maxH : Nat) (y : Nat) (style : Nat) :
    Nat → List Nat → Buffer → Buffer × Bool
  | curX, s, b =>
    match hs : s with
    | [] => (b, false)
    | _ :: _ =>
      if curX < maxW then
        let len := _kiloc_get_utf8_len s
        if hlen : len = 0 then (b, false)
        else
          let width := cw (s.take len)
          if curX + width > maxW then (b, false)
          else
            let b1 := kiloc_putchr maxW maxH curX y s style b
            let (b2, oob) :=
              if width > 1 then contWrite y (curX + 1) style b1 else (b1, false)
            let (b3, oob') := putstrAux cw maxW maxH y style (curX + width) (s.drop len) b2
            (b3, oob || oob')
      else (b, false)
termination_by _ s _ => s.length
decreasing_by
  simp only [List.length_drop]
  have hpos : 1 ≤ _kiloc_get_utf8_len s := Nat.one_le_iff_ne_zero.mpr hlen
  subst hs
  simp only [List.length_cons]
  omega

/-- Embeds `kiloc_putstr` (src/kiloc.c:208). -/
def kiloc_putstr (cw : List Nat → Nat) (maxW maxH : Nat) (x y : Nat)
    (content : List Nat) (style : Nat) (b : Buffer) : Buffer × Bool :=
  putstrAux cw maxW maxH y style x content b

/-- Embeds `kiloc_make_style` (src/kiloc.c:422): packs foreground/background
RGB and the three flag booleans into one 64-bit style word via the same
sequence of `|=` operations; the `uint64_t` shifts are taken modulo `2 ^ 64`
as in C. -/
def kiloc_make_style (fg_rgb bg_rgb : Nat) (bold italic underline : Bool) : Nat :=
  let s0 : Nat := 0
  let s1 := if bold then s0 ||| 1 else s0
  let s2 := if italic then s1 ||| 2 else s1
  let s3 := if underline then s2 ||| 4 else s2
  let s4 := s3 ||| ((bg_rgb <<< 16) % 2 ^ 64)
  s4 ||| ((fg_rgb <<< 40) % 2 ^ 64)

/-- The foreground field extraction of `_kiloc_apply_style` (src/kiloc.c:378):
`(style >> 40) & 0xFFFFFF`. -/
def fgField (style : Nat) : Nat := (style >>> 40) &&& 0xFFFFFF

/-- The background field extraction of `_kiloc_apply_style` (src/kiloc.c:380):
`(style >> 16) & 0xFFFFFF`. -/
def bgField (style : Nat) : Nat := (style >>> 16) &&& 0xFFFFFF

/-- The flag field extraction of `_kiloc_apply_style` (src/kiloc.c:382):
`style & 0x7`. -/
def flagsField (style : Nat) : Nat := style &&& 0x7

/-- Embeds `_kiloc_apply_style` (src/kiloc.c:376) as the `String` its
`fputs`/`printf` calls write to stdout, in call order: the reset prefix, one
conditional code per low flag bit, a 24-bit foreground escape when the
foreground field is non-zero, a 24-bit background escape when the background
field is non-zero, and the closing `m`. -/
def _kiloc_apply_style (style : Nat) : String :=
  let fg_rgb := fgField style
  let bg_rgb := bgField style
  let flags := flagsField style
  let fg_r := (fg_rgb >>> 16) &&& 0xFF
  let fg_g := (fg_rgb >>> 8) &&& 0xFF
  let fg_b := fg_rgb &&& 0xFF
  let bg_r := (bg_rgb >>> 16) &&& 0xFF
  let bg_g := (bg_rgb >>> 8) &&& 0xFF
  let bg_b := bg_rgb &&& 0xFF
  "\x1b[0"
    ++ (if flags &&& 0x1 ≠ 0 then ";1" else "")
    ++ (if flags &&& 0x2 ≠ 0 then ";3" else "")
    ++ (if flags &&& 0x4 ≠ 0 then ";4" else "")
    ++ (if fg_rgb ≠ 0 then
          ";38;2;" ++ toString fg_r ++ ";" ++ toString fg_g ++ ";" ++ toString fg_b
        else "")
    ++ (if bg_rgb ≠ 0 then
          ";48;2;" ++ toString bg_r ++ ";" ++ toString bg_g ++ ";" ++ toString bg_b
        else "")
    ++ "m"

/-- Renders glyph bytes as the characters `printf("%s", ...)` writes; each
byte of the cell content becomes one output symbol. -/
def bytesToStr (l : List Nat) : String :=
  String.mk (l.map Char.ofNat)

/-- The cursor-positioning sequence `\x1b[<row>;<col>H` emitted at
src/kiloc.c:515 (row and column already 1-based and offset-adjusted). -/
def cursorSeq (row col : Nat) : String :=
  "\x1b[" ++ toString row ++ ";" ++ toString col ++ "H"

/-- One change record of the diff phase: row, column, and the back-buffer
cell (glyph bytes and style) at that position. -/
structure ChangeRec where
  y : Nat
  x : Nat
  cell : Cell
deriving DecidableEq, Repr

/-- The comparison/update pass of one row of `kiloc_render`'s diff loop
(src/kiloc.c:508): emits a change record whenever the front and back cells
differ in content or style, and yields the updated front row (changed cells
overwritten with the back cell). -/
def diffRow (y : Nat) : Nat → List Cell → List Cell → List ChangeRec × List Cell
  | _, [], _ => ([], [])
  | _, _ :: _, [] => ([], [])
  | x, fc :: fs, bc :: bs =>
    let (rs, fs') := diffRow y (x + 1) fs bs
    if fc ≠ bc then (⟨y, x, bc⟩ :: rs, bc :: fs') else (rs, fc :: fs')

/-- The full diff pass of `kiloc_render` (src/kiloc.c:507): rows scanned top
to bottom, cells left to right (row-major). Returns the change records and
the updated front buffer. -/
def diffBuf : Nat → Buffer → Buffer → List ChangeRec × Buffer
  | _, [], _ => ([], [])
  | _, _ :: _, [] => ([], [])
  | y, fr :: fs, br :: bs =>
    let (r1, fr') := diffRow y 0 fr br
    let (rs, fs') := diffBuf (y + 1) fs bs
    (r1 ++ rs, fr' :: fs')

/-- The output `kiloc_render` emits for one changed cell (src/kiloc.c:515):
cursor positioning, then the SGR sequence, then the glyph bytes. -/
def emitRecord (offX offY : Nat) (r : ChangeRec) : String :=
  cursorSeq (offY + r.y + 1) (offX + r.x + 1)
    ++ _kiloc_apply_style r.cell.style
    ++ bytesToStr r.cell.content

/-- One row of the fused diff-and-flush loop of `kiloc_render`
(src/kiloc.c:508–528), exactly as the C code runs it: compare each front/back
cell pair, and for a differing pair print the cursor move, the SGR sequence
and the content, then copy the back cell into the front buffer. -/
def renderFlushRow (offX offY y : Nat) :
    Nat → List Cell → List Cell → String × List Cell
  | _, [], _ => ("", [])
  | _, _ :: _, [] => ("", [])
  | x, fc :: fs, bc :: bs =>
    let (out, fs') := renderFlushRow offX offY y (x + 1) fs bs
    if fc ≠ bc then
      (cursorSeq (offY + y + 1) (offX + x + 1)
         ++ _kiloc_apply_style bc.style
         ++ bytesToStr bc.content ++ out,
       bc :: fs')
    else (out, fc :: fs')

/-- The fused diff-and-flush phase of `kiloc_render` (src/kiloc.c:507–531),
including the single trailing `\x1b[0m` reset written after the loop. -/
def renderFlush (offX offY : Nat) : Nat → Buffer → Buffer → String × Buffer
  | _, [], _ => ("\x1b[0m", [])
  | _, _ :: _, [] => ("\x1b[0m", [])
  | y, fr :: fs, br :: bs =>
    let (o1, fr') := renderFlushRow offX offY y 0 fr br
    let (os, fs') := renderFlush offX offY (y + 1) fs bs
    (o1 ++ os, fr' :: fs')

/-- Embeds `_kiloc_check_tersize` (src/kiloc.c:24). The `ioctl` result is an
input: `none` models a failed query (return `false`, state untouched);
`some (w, h)` models measured terminal dimensions. Returns the updated
`(ter_w, ter_h)` state and whether a size change was detected. -/
def check_tersize (terW terH : Nat) (ws : Option (Nat × Nat)) :
    (Nat × Nat) × Bool :=
  match ws with
  | none => ((terW, terH), false)
  | some (w, h) =>
    if terW ≠ w ∨ terH ≠ h then ((w, h), true) else ((terW, terH), false)

/-- The front-buffer cell written by the resize-invalidation loop of
`kiloc_render` (src/kiloc.c:477): empty content (`content[0] = '\0'`) and
style `(uint64_t)-1 = 2 ^ 64 - 1`. -/
def sentinelCell : Cell := ⟨[], 2 ^ 64 - 1⟩

/-- The resize phase of `kiloc_render` (src/kiloc.c:474): when
`_kiloc_check_tersize` reports a change, every front-buffer cell is
overwritten with `sentinelCell`; otherwise the front buffer is untouched. -/
def renderResizePhase (terW terH : Nat) (ws : Option (Nat × Nat))
    (front : Buffer) : Buffer :=
  if (check_tersize terW terH ws).2 then
    front.map (fun row => row.map (fun _ => sentinelCell))
  else front

/-- Component type tag, embedding `enum cmp_type` (src/kiloc.h:47). -/
inductive CmpType where
  | root
  | container
  | text
  | box
deriving DecidableEq, Repr

/-- A component descriptor as the caller hands it to `kiloc_addcmp`: the
manually set fields of `struct kiloc_cmp` (src/kiloc.h:89). -/
structure KCmp where
  cid : Nat
  pid : Nat
  ty : CmpType
deriving DecidableEq, Repr

/-- The component-tree state touched by `kiloc_addcmp`: the `k->cids`
registry (component id → registered descriptor) and each registered parent's
ordered children list (parent id → child ids, embedding the
`children`/`child_count` arrays grown by `_kiloc_cmp_add_child`). -/
structure TreeSt where
  cids : Nat → Option KCmp
  childIds : Nat → List Nat

/-- The tree state right after `kiloc_init` (src/kiloc.c:154): only the root
(cid 0, pid 0) is registered and no node has children. -/
def initTreeSt : TreeSt :=
  { cids := fun i => if i = 0 then some ⟨0, 0, CmpType.root⟩ else none
    childIds := fun _ => [] }

/-- Embeds `_kiloc_cmp_add_child` (src/kiloc.c:286) at the id level: appends
the child's id to the parent's children list. -/
def addChild (p c : Nat) (s : TreeSt) : TreeSt :=
  { s with childIds := fun i => if i = p then s.childIds p ++ [c] else s.childIds i }

/-- Embeds `kiloc_addcmp` (src/kiloc.c:446). Exactly as in C: the node is
first stored unconditionally at `k->cids[c->cid]`; then, if `pid > 0`, it is
linked under `k->cids[c->pid]` — when that registry slot is empty the C code
dereferences a NULL pointer, modelled as `none` (crash); if `pid = 0` and
`cid ≠ 0` it is linked under the root. No validation of any kind is
performed before the registry write. -/
def kiloc_addcmp (c : KCmp) (s : TreeSt) : Option TreeSt :=
  let s1 : TreeSt :=
    { s with cids := fun i => if i = c.cid then some c else s.cids i }
  if c.pid > 0 then
    match s1.cids c.pid with
    | none => none
    | some _ => some (addChild c.pid c.cid s1)
  else if c.cid ≠ 0 then
    some (addChild 0 c.cid s1)
  else
    some s1

/-- A node of the component tree as walked by `_kiloc_cmp_render`
(src/kiloc.c:299): id, parent id, type tag, the relative `x`/`y` of its
container or text payload, the text payload's content bytes and style word,
and its ordered children. -/
inductive KNode where
  | node (cid pid : Nat) (ty : CmpType) (rx ry : Nat) (content : List Nat)
      (style : Nat) (children : List KNode)

/-- Component id of a node. -/
def KNode.cidOf : KNode → Nat
  | .node c _ _ _ _ _ _ _ => c

/-- Parent id of a node. -/
def KNode.pidOf : KNode → Nat
  | .node _ p _ _ _ _ _ _ => p

/-- Relative position stored in the node's payload. -/
def KNode.relOf : KNode → Nat × Nat
  | .node _ _ _ rx ry _ _ _ => (rx, ry)

/-- Type tag of a node. -/
def KNode.tyOf : KNode → CmpType
  | .node _ _ ty _ _ _ _ _ => ty

/-- The mutable render state threaded through the tree walk: the `abs_x`/
`abs_y` fields of all registered components (indexed by component id, as the
walk reads them through `k->cids[pid]`), and the back buffer written by
`kiloc_putstr`. -/
structure RState where
  abs : Nat → Nat × Nat
  buf : Buffer

/-- Updates the absolute position of component `i`. -/
def setAbs (i : Nat) (v : Nat × Nat) (s : RState) : RState :=
  { s with abs := fun j => if j = i then v else s.abs j }

/-- The absolute-position computation shared by `_kiloc_cmp_container_render`
(src/kiloc.c:335) and `_kiloc_cmp_text_render` (src/kiloc.c:359): parent's
resolved absolute position plus the node's relative offset when `pid > 0`,
the relative offset itself otherwise. The `abs_x`/`abs_y` fields are
`uint16_t`, so the additions wrap modulo `2 ^ 16`. -/
def resolveAbs (s : RState) (pid rx ry : Nat) : Nat × Nat :=
  if pid > 0 then
    (((s.abs pid).1 + rx) % 2 ^ 16, ((s.abs pid).2 + ry) % 2 ^ 16)
  else (rx % 2 ^ 16, ry % 2 ^ 16)

mutual

/-- Embeds `_kiloc_cmp_render` (src/kiloc.c:299) and its type-specific
handlers: a root recurses into its children; a container resolves its
absolute position and recurses; a text node resolves its absolute position
and writes its content via `kiloc_putstr`; a box has no switch case and is
a no-op. -/
def cmpRender (cw : List Nat → Nat) (maxW maxH : Nat) : KNode → RState → RState
  | .node cid pid ty rx ry content style children, s =>
    match ty with
    | CmpType.root => cmpRenderList cw maxW maxH children s
    | CmpType.container =>
      let s1 := setAbs cid (resolveAbs s pid rx ry) s
      cmpRenderList cw maxW maxH children s1
    | CmpType.text =>
      let a := resolveAbs s pid rx ry
      let s1 := setAbs cid a s
      { s1 with
        buf := (kiloc_putstr cw maxW maxH a.1 a.2 content style s1.buf).1 }
    | CmpType.box => s

/-- The child loop of the render dispatch (src/kiloc.c:322, 343). -/
def cmpRenderList (cw : List Nat → Nat) (maxW maxH : Nat) :
    List KNode → RState → RState
  | [], s => s
  | t :: ts, s => cmpRenderList cw maxW maxH ts (cmpRender cw maxW maxH t s)

end

mutual

/-- All component ids occurring in a tree. -/
def allCids : KNode → List Nat
  | .node c _ _ _ _ _ _ ch => c :: allCidsList ch

/-- All component ids occurring in a forest. -/
def allCidsList : List KNode → List Nat
  | [] => []
  | t :: ts => allCids t ++ allCidsList ts

end

mutual

/-- The nodes whose absolute position the walk resolves: a container is
resolved and so are nodes under it; a text node is resolved but its children
are never visited (src/kiloc.c:353 does not recurse); a root is not resolved
itself but its children are; a box and everything below it is skipped
(src/kiloc.c:303 has no case for it). -/
def vNodes : KNode → List KNode
  | .node c p ty rx ry co st ch =>
    match ty with
    | CmpType.root => vNodesList ch
    | CmpType.container =>
      KNode.node c p ty rx ry co st ch :: vNodesList ch
    | CmpType.text => [KNode.node c p ty rx ry co st ch]
    | CmpType.box => []

/-- `vNodes` over a forest, in sibling order. -/
def vNodesList : List KNode → List KNode
  | [] => []
  | t :: ts => vNodes t ++ vNodesList ts

end

mutual

/-- The parent/child id consistency `kiloc_addcmp` establishes: every child
node's `pid` equals its parent node's `cid` (a node registered with `pid = 0`
and `cid ≠ 0` is linked under the root, whose `cid` is 0). -/
def edgeOKb : KNode → Bool
  | .node c _ _ _ _ _ _ ch => edgeOKbList c ch

/-- `edgeOKb` for a forest of children of the node with id `par`. -/
def edgeOKbList (par : Nat) : List KNode → Bool
  | [] => true
  | t :: ts => (t.pidOf == par) && edgeOKb t && edgeOKbList par ts

end

/-- The claim's shape of the diff output: visiting all cell pairs in
row-major order and keeping a `(position, glyph, style)` record exactly for
the differing pairs. -/
def rowMajorChanges (f b : Buffer) : List ChangeRec :=
  ((f.zip b).enum).flatMap (fun yrow =>
    ((yrow.2.1.zip yrow.2.2).enum).filterMap (fun xcell =>
      if xcell.2.1 ≠ xcell.2.2 then some ⟨yrow.1, xcell.1, xcell.2.2⟩ else none))

/-- Concatenation of a list of output fragments, in order. -/
def strJoin : List String → String
  | [] => ""
  | s :: rest => s ++ strJoin rest

/-- The 24-bit foreground color escape fragment for a style word, as printed
by src/kiloc.c:406. -/
def fgEsc (s : Nat) : String :=
  ";38;2;" ++ toString ((fgField s >>> 16) &&& 0xFF) ++ ";"
    ++ toString ((fgField s >>> 8) &&& 0xFF) ++ ";"
    ++ toString (fgField s &&& 0xFF)

/-- The 24-bit background color escape fragment for a style word, as printed
by src/kiloc.c:411. -/
def bgEsc (s : Nat) : String :=
  ";48;2;" ++ toString ((bgField s >>> 16) &&& 0xFF) ++ ";"
    ++ toString ((bgField s >>> 8) &&& 0xFF) ++ ";"
    ++ toString (bgField s &&& 0xFF)

/-- Frame facts about one `kiloc_putstr` loop state: buffer shape kept,
rows other than `y` untouched, columns of row `y` left of `curX` untouched. -/
def FrameOK (cw : List Nat → Nat) (maxW maxH y style curX : Nat)
    (s : List Nat) (b : Buffer) : Prop :=
  (putstrAux cw maxW maxH y style curX s b).1.length = b.length ∧
  (∀ y', y' ≠ y →
    (putstrAux cw maxW maxH y style curX s b).1.getD y' [] = b.getD y' []) ∧
  ((putstrAux cw maxW maxH y style curX s b).1.getD y []).length
    = (b.getD y []).length ∧
  (∀ c, c < curX →
    ((putstrAux cw maxW maxH y style curX s b).1.getD y []).getD c blankCell
      = (b.getD y []).getD c blankCell)

/-- A concrete tree state in which component id 1 is already registered
(as a text node under the root). -/
def dupSt : TreeSt :=
  { cids := fun i =>
      if i = 0 then some ⟨0, 0, CmpType.root⟩
      else if i = 1 then some ⟨1, 0, CmpType.text⟩ else none
    childIds := fun i => if i = 0 then [1] else [] }

/-- A concrete component tree: the root owns a container (id 1, rel (2,3))
containing a text (id 2, rel (4,5)), and a root-level text (id 3, rel (7,1)). -/
def tEx : KNode :=
  KNode.node 0 0 CmpType.root 0 0 [] 0
    [KNode.node 1 0 CmpType.container 2 3 [] 0
      [KNode.node 2 1 CmpType.text 4 5 [65] 0 []],
     KNode.node 3 0 CmpType.text 7 1 [66] 0 []]

/-! ### Helper lemmas -/

theorem lor_shiftLeft_eq_add {a b n : Nat} (h : a < 2 ^ n) :
    a ||| (b <<< n) = b <<< n + a := by
  rw [Nat.lor_comm, Nat.shiftLeft_eq, Nat.mul_comm, ← Nat.mul_add_lt_is_or h]

/-! ### Theorems about the claims -/

/-- C5: for fg, bg ≤ 0xFFFFFF and any flag booleans, `kiloc_make_style`
places fg in bits 63..40, bg in bits 39..16, bold in bit 0, italic in bit 1,
underline in bit 2 with all other bits zero (equivalently, the word is
exactly `fg·2^40 + bg·2^16 + flags`), and the field extraction performed by
`_kiloc_apply_style` recovers exactly these inputs. -/
theorem make_style_roundtrip (fg bg : Nat) (bold italic underline : Bool)
    (hfg : fg ≤ 0xFFFFFF) (hbg : bg ≤ 0xFFFFFF) :
    kiloc_make_style fg bg bold italic underline =
      fg * 2 ^ 40 + bg * 2 ^ 16 +
        ((if bold then 1 else 0) + (if italic then 2 else 0) +
          (if underline then 4 else 0)) ∧
    fgField (kiloc_make_style fg bg bold italic underline) = fg ∧
    bgField (kiloc_make_style fg bg bold italic underline) = bg ∧
    flagsField (kiloc_make_style fg bg bold italic underline) =
      (if bold then 1 else 0) + (if italic then 2 else 0) +
        (if underline then 4 else 0) := by
  have hfg' : fg < 2 ^ 24 := by omega
  have hbg' : bg < 2 ^ 24 := by omega
  set F : Nat := (if bold then 1 else 0) + (if italic then 2 else 0) +
    (if underline then 4 else 0) with hF
  have hFlt : F < 8 := by
    rw [hF]
    split <;> split <;> split <;> norm_num
  have hpacked : kiloc_make_style fg bg bold italic underline =
      fg * 2 ^ 40 + bg * 2 ^ 16 + F := by
    unfold kiloc_make_style
    have hflags :
        (if underline then
            (if italic then (if bold then (0 : Nat) ||| 1 else 0) ||| 2
              else if bold then (0 : Nat) ||| 1 else 0) ||| 4
          else if italic then (if bold then (0 : Nat) ||| 1 else 0) ||| 2
            else if bold then (0 : Nat) ||| 1 else 0) = F := by
      rw [hF]; cases bold <;> cases italic <;> cases underline <;> decide
    simp only []
    rw [hflags]
    have hbgmod : (bg <<< 16) % 2 ^ 64 = bg <<< 16 := by
      rw [Nat.shiftLeft_eq]
      exact Nat.mod_eq_of_lt (by nlinarith [Nat.pow_lt_pow_right (a := 2) one_lt_two (by norm_num : (24 : Nat) < 64)])
    have hfgmod : (fg <<< 40) % 2 ^ 64 = fg <<< 40 := by
      rw [Nat.shiftLeft_eq]
      exact Nat.mod_eq_of_lt (by nlinarith)
    rw [hbgmod, hfgmod]
    have h1 : F ||| (bg <<< 16) = bg <<< 16 + F :=
      lor_shiftLeft_eq_add (by omega)
    rw [h1]
    have h2 : (bg <<< 16 + F) ||| (fg <<< 40) = fg <<< 40 + (bg <<< 16 + F) :=
      lor_shiftLeft_eq_add (by
        rw [Nat.shiftLeft_eq]
        norm_num at hbg' hFlt ⊢
        omega)
    rw [h2, Nat.shiftLeft_eq, Nat.shiftLeft_eq]
    ring
  refine ⟨hpacked, ?_, ?_, ?_⟩
  · show (kiloc_make_style fg bg bold italic underline >>> 40) &&& 0xFFFFFF = fg
    rw [hpacked, Nat.shiftRight_eq_div_pow]
    have : (0xFFFFFF : Nat) = 2 ^ 24 - 1 := by norm_num
    rw [this, Nat.and_pow_two_sub_one_eq_mod]
    omega
  · show (kiloc_make_style fg bg bold italic underline >>> 16) &&& 0xFFFFFF = bg
    rw [hpacked, Nat.shiftRight_eq_div_pow]
    have : (0xFFFFFF : Nat) = 2 ^ 24 - 1 := by norm_num
    rw [this, Nat.and_pow_two_sub_one_eq_mod]
    omega
  · show kiloc_make_style fg bg bold italic underline &&& 0x7 = F
    rw [hpacked]
    have : (0x7 : Nat) = 2 ^ 3 - 1 := by norm_num
    rw [this, Nat.and_pow_two_sub_one_eq_mod]
    omega

/-- Witness for C5 at fg = 0x123456, bg = 0xABCDEF, bold, not italic,
underline. -/
theorem make_style_roundtrip_witness :
    kiloc_make_style 0x123456 0xABCDEF true false true =
      0x123456 * 2 ^ 40 + 0xABCDEF * 2 ^ 16 + 5 ∧
    fgField (kiloc_make_style 0x123456 0xABCDEF true false true) = 0x123456 ∧
    bgField (kiloc_make_style 0x123456 0xABCDEF true false true) = 0xABCDEF ∧
    flagsField (kiloc_make_style 0x123456 0xABCDEF true false true) = 5 := by
  have := make_style_roundtrip 0x123456 0xABCDEF true false true
    (by norm_num) (by norm_num)
  simpa using this

/-- C9: `kiloc_putchr` is a silent no-op — no buffer cell modified, no error
surfaced — whenever `x ≥ max_w` or `y ≥ max_h`, or the content is null/empty,
or its leading byte matches none of the UTF-8 leading-byte patterns
`0xxxxxxx` (≤ 0x7F), `110xxxxx`, `1110xxxx`, `11110xxx`. -/
theorem putchr_noop (maxW maxH x y : Nat) (content : List Nat) (style : Nat)
    (b : Buffer)
    (h : x ≥ maxW ∨ y ≥ maxH ∨ content = [] ∨
      ¬(content.headD 0 ≤ 0x7F ∨ content.headD 0 &&& 0xE0 = 0xC0 ∨
        content.headD 0 &&& 0xF0 = 0xE0 ∨ content.headD 0 &&& 0xF8 = 0xF0)) :
    kiloc_putchr maxW maxH x y content style b = b := by
  unfold kiloc_putchr
  split
  · rfl
  · rename_i hin
    have hlen : _kiloc_get_utf8_len content = 0 := by
      rcases h with h | h | h | h
      · exact absurd (Or.inl h) hin
      · exact absurd (Or.inr h) hin
      · subst h; rfl
      · push_neg at h
        obtain ⟨h1, h2, h3, h4⟩ := h
        cases content with
        | nil => rfl
        | cons b0 rest =>
          simp only [List.headD_cons] at h1 h2 h3 h4
          have hb0 : ¬(b0 = 0) := by omega
          have h1' : ¬(b0 ≤ 0x7F) := by omega
          simp [_kiloc_get_utf8_len, hb0, h1', h2, h3, h4]
    simp [hlen]

/-- Witness for C9: an out-of-canvas write at `x = 5` on a 4 × 2 canvas, and
a malformed write whose leading byte `0x80` is a UTF-8 continuation byte,
both leave the buffer untouched. -/
theorem putchr_noop_witness :
    kiloc_putchr 4 2 5 0 [65] 0 (blankBuffer 4 2) = blankBuffer 4 2 ∧
    kiloc_putchr 4 2 0 0 [0x80, 0x41] 7 (blankBuffer 4 2) = blankBuffer 4 2 :=
  ⟨putchr_noop 4 2 5 0 [65] 0 (blankBuffer 4 2) (Or.inl (by decide)),
   putchr_noop 4 2 0 0 [0x80, 0x41] 7 (blankBuffer 4 2)
     (Or.inr (Or.inr (Or.inr (by decide))))⟩

/-- One row of the diff pass, characterized: starting at column `x`, the
records are exactly the differing cell pairs, in column order, and the
updated front row is the back row. -/
theorem diffRow_eq (y : Nat) :
    ∀ (x : Nat) (fr br : List Cell), fr.length = br.length →
      diffRow y x fr br =
        (((fr.zip br).enumFrom x).filterMap (fun xc =>
            if xc.2.1 ≠ xc.2.2 then some ⟨y, xc.1, xc.2.2⟩ else none),
          br) := by
  intro x fr
  induction fr generalizing x with
  | nil =>
    intro br hlen
    cases br with
    | nil => rfl
    | cons b bs => simp at hlen
  | cons fc fs ih =>
    intro br hlen
    cases br with
    | nil => simp at hlen
    | cons bc bs =>
      simp only [List.length_cons, Nat.add_right_cancel_iff] at hlen
      simp only [diffRow, ih (x + 1) bs hlen, List.zip_cons_cons,
        List.enumFrom_cons, List.filterMap_cons]
      by_cases hne : fc ≠ bc
      · simp [hne]
      · push_neg at hne
        simp [hne]

/-- The diff pass starting at row `y`, characterized row by row. -/
theorem diffBuf_eq :
    ∀ (y : Nat) (f b : Buffer),
      List.Forall₂ (fun fr br => fr.length = br.length) f b →
      diffBuf y f b =
        (((f.zip b).enumFrom y).flatMap (fun yr =>
            ((yr.2.1.zip yr.2.2).enum).filterMap (fun xc =>
              if xc.2.1 ≠ xc.2.2 then some ⟨yr.1, xc.1, xc.2.2⟩ else none)),
          b) := by
  intro y f b h
  induction h generalizing y with
  | nil => rfl
  | cons hfb _ ih =>
    rename_i fr br fs bs _
    simp only [diffBuf, diffRow_eq _ 0 fr br hfb, ih (y + 1),
      List.zip_cons_cons, List.enumFrom_cons, List.flatMap_cons, List.enum]

/-- C2: the diff phase of `kiloc_render` emits a change record for a cell
iff the front and back cells differ in glyph content or style, visits cells
in row-major order (the records are exactly the row-major enumeration of the
differing cell pairs), and afterwards every front-buffer cell equals the
corresponding back-buffer cell (the updated front buffer is the back
buffer). -/
theorem render_diff_correct (f b : Buffer)
    (h : List.Forall₂ (fun fr br => fr.length = br.length) f b) :
    diffBuf 0 f b = (rowMajorChanges f b, b) := by
  rw [diffBuf_eq 0 f b h]
  rfl

/-- Witness for C2 on concrete 2 × 2 buffers: diffing a buffer against
itself emits zero records, and diffing against a buffer differing in exactly
one cell emits exactly one record at that cell's coordinates. -/
theorem render_diff_correct_witness :
    diffBuf 0 (blankBuffer 2 2) (blankBuffer 2 2) = ([], blankBuffer 2 2) ∧
    diffBuf 0 (blankBuffer 2 2)
        (setCell (blankBuffer 2 2) 1 0 ⟨[66], 3⟩) =
      ([⟨1, 0, ⟨[66], 3⟩⟩],
        setCell (blankBuffer 2 2) 1 0 ⟨[66], 3⟩) :=
  ⟨(render_diff_correct (blankBuffer 2 2) (blankBuffer 2 2)
      (by decide)).trans (by decide),
   (render_diff_correct (blankBuffer 2 2)
      (setCell (blankBuffer 2 2) 1 0 ⟨[66], 3⟩)
      (by decide)).trans (by decide)⟩

theorem strJoin_append (a b : List String) :
    strJoin (a ++ b) = strJoin a ++ strJoin b := by
  induction a with
  | nil => simp [strJoin]
  | cons s rest ih => simp [strJoin, ih, String.append_assoc]

theorem renderFlushRow_eq (offX offY y : Nat) :
    ∀ (x : Nat) (fr br : List Cell), fr.length = br.length →
      renderFlushRow offX offY y x fr br =
        (strJoin ((diffRow y x fr br).1.map (emitRecord offX offY)),
          (diffRow y x fr br).2) := by
  intro x fr
  induction fr generalizing x with
  | nil =>
    intro br hlen
    cases br with
    | nil => rfl
    | cons b bs => simp at hlen
  | cons fc fs ih =>
    intro br hlen
    cases br with
    | nil => simp at hlen
    | cons bc bs =>
      simp only [List.length_cons, Nat.add_right_cancel_iff] at hlen
      simp only [renderFlushRow, diffRow, ih (x + 1) bs hlen]
      by_cases hne : fc ≠ bc
      · simp [hne, strJoin, emitRecord, String.append_assoc]
      · push_neg at hne
        simp [hne]

theorem renderFlush_eq (offX offY : Nat) :
    ∀ (y : Nat) (f b : Buffer),
      List.Forall₂ (fun fr br => fr.length = br.length) f b →
      renderFlush offX offY y f b =
        (strJoin ((diffBuf y f b).1.map (emitRecord offX offY)) ++ "\x1b[0m",
          (diffBuf y f b).2) := by
  intro y f b h
  induction h generalizing y with
  | nil => rfl
  | cons hfb _ ih =>
    rename_i fr br fs bs _
    simp only [renderFlush, diffBuf, renderFlushRow_eq offX offY y 0 fr br hfb,
      ih (y + 1), List.map_append, strJoin_append, String.append_assoc]

/-- C6: for every changed cell the flush phase of `kiloc_render` emits, in
order, a cursor-positioning sequence, then an SGR sequence that starts with
the reset prefix, conditionally appends the bold, italic and underline codes
according to the style word's low three bits, appends a 24-bit foreground
escape iff the foreground field is non-zero and a 24-bit background escape
iff the background field is non-zero, then the cell's glyph bytes; and after
the entire diff pass exactly one trailing reset sequence is appended. -/
theorem render_flush_emission (offX offY : Nat) (f b : Buffer)
    (h : List.Forall₂ (fun fr br => fr.length = br.length) f b) :
    renderFlush offX offY 0 f b =
      (strJoin ((diffBuf 0 f b).1.map (emitRecord offX offY)) ++ "\x1b[0m",
        (diffBuf 0 f b).2) ∧
    (∀ r : ChangeRec, emitRecord offX offY r =
      cursorSeq (offY + r.y + 1) (offX + r.x + 1)
        ++ _kiloc_apply_style r.cell.style ++ bytesToStr r.cell.content) ∧
    (∀ s : Nat, _kiloc_apply_style s =
      "\x1b[0" ++ (if s.testBit 0 then ";1" else "")
        ++ (if s.testBit 1 then ";3" else "")
        ++ (if s.testBit 2 then ";4" else "")
        ++ (if fgField s ≠ 0 then fgEsc s else "")
        ++ (if bgField s ≠ 0 then bgEsc s else "") ++ "m") := by
  refine ⟨renderFlush_eq offX offY 0 f b h, fun r => rfl, fun s => ?_⟩
  have e0 : flagsField s &&& 0x1 = (s.testBit 0).toNat * 1 := by
    rw [flagsField, Nat.and_assoc]
    rw [show (7 : Nat) &&& 0x1 = 2 ^ 0 from by decide, Nat.and_two_pow]
    norm_num
  have e1 : flagsField s &&& 0x2 = (s.testBit 1).toNat * 2 := by
    rw [flagsField, Nat.and_assoc]
    rw [show (7 : Nat) &&& 0x2 = 2 ^ 1 from by decide, Nat.and_two_pow]
    norm_num
  have e2 : flagsField s &&& 0x4 = (s.testBit 2).toNat * 4 := by
    rw [flagsField, Nat.and_assoc]
    rw [show (7 : Nat) &&& 0x4 = 2 ^ 2 from by decide, Nat.and_two_pow]
    norm_num
  simp only [_kiloc_apply_style, e0, e1, e2]
  cases h0 : s.testBit 0 <;> cases h1 : s.testBit 1 <;> cases h2 : s.testBit 2 <;>
    simp [fgEsc, bgEsc, String.append_assoc]

/-- Witness for C6 on a concrete 1 × 2 buffer pair with one changed styled
cell. -/
theorem render_flush_emission_witness :
    renderFlush 3 1 0 [[blankCell, blankCell]]
        [[blankCell, ⟨[65], kiloc_make_style 0 0xFF0000 true false false⟩]] =
      (cursorSeq 2 5
          ++ _kiloc_apply_style (kiloc_make_style 0 0xFF0000 true false false)
          ++ bytesToStr [65] ++ "\x1b[0m",
        [[blankCell, ⟨[65], kiloc_make_style 0 0xFF0000 true false false⟩]]) := by
  have := render_flush_emission 3 1 [[blankCell, blankCell]]
    [[blankCell, ⟨[65], kiloc_make_style 0 0xFF0000 true false false⟩]]
    (by decide)
  rw [this.1]
  rfl

theorem setCell_length (b : Buffer) (y x : Nat) (c : Cell) :
    (setCell b y x c).length = b.length := by
  simp [setCell]

theorem setCell_row_ne (b : Buffer) (y x : Nat) (c : Cell) (y' : Nat)
    (h : y' ≠ y) : (setCell b y x c).getD y' [] = b.getD y' [] := by
  simp [setCell, List.getD, List.getElem?_set_ne (Ne.symm h)]

theorem setCell_rowlen (b : Buffer) (y x : Nat) (c : Cell) :
    ((setCell b y x c).getD y []).length = (b.getD y []).length := by
  by_cases hy : y < b.length
  · simp [setCell, List.getD, List.getElem?_set_self, hy]
  · rw [setCell, List.set_eq_of_length_le (by omega)]

theorem setCell_col_ne (b : Buffer) (y x : Nat) (c : Cell) (x' : Nat)
    (h : x' ≠ x) :
    ((setCell b y x c).getD y []).getD x' blankCell
      = (b.getD y []).getD x' blankCell := by
  by_cases hy : y < b.length
  · simp [setCell, List.getD, List.getElem?_set_self, hy,
      List.getElem?_set_ne (Ne.symm h)]
  · rw [setCell, List.set_eq_of_length_le (by omega)]

theorem setCell_get (b : Buffer) (y x : Nat) (c : Cell) (hy : y < b.length)
    (hx : x < (b.getD y []).length) :
    ((setCell b y x c).getD y []).getD x blankCell = c := by
  have hx' : x < (b.getD y []).length := hx
  simp [setCell, List.getD, List.getElem?_set_self, hy] at *
  simp [List.getElem?_set_self, hx']

theorem setCell_WF (b : Buffer) (y x : Nat) (c : Cell) (w : Nat)
    (h : ∀ r ∈ b, r.length = w) : ∀ r ∈ setCell b y x c, r.length = w := by
  intro r hr
  by_cases hy : y < b.length
  · rcases List.mem_or_eq_of_mem_set hr with hr' | hr'
    · exact h r hr'
    · subst hr'
      simp only [List.length_set]
      exact h _ (by simp [List.getD, List.getElem?_eq_getElem hy, List.getElem_mem])
  · rw [setCell, List.set_eq_of_length_le (by omega)] at hr
    exact h r hr

/-- `kiloc_putchr` either leaves the buffer unchanged or writes one cell at
`(x, y)`. -/
theorem putchr_cases (maxW maxH x y : Nat) (content : List Nat) (style : Nat)
    (b : Buffer) :
    kiloc_putchr maxW maxH x y content style b = b ∨
    ∃ bytes, kiloc_putchr maxW maxH x y content style b
        = setCell b y x ⟨bytes, style⟩ := by
  unfold kiloc_putchr
  split
  · exact Or.inl rfl
  · by_cases hl : _kiloc_get_utf8_len content = 0
    · simp [hl]
    · exact Or.inr ⟨if _kiloc_get_utf8_len content < 5 then
        content.take (_kiloc_get_utf8_len content) else content.take 4,
        by simp [hl]⟩

/-- `contWrite`'s buffer either is unchanged or has one cell written at
`(x, y)`. -/
theorem contWrite_cases (y x : Nat) (style : Nat) (b : Buffer) :
    (contWrite y x style b).1 = b ∨
    (contWrite y x style b).1 = setCell b y x ⟨[], style⟩ := by
  unfold contWrite
  split
  · split
    · exact Or.inr rfl
    · exact Or.inl rfl
  · exact Or.inl rfl

/-- Frame facts for a buffer that differs from `b` by at most one written
cell at `(x0, y)`. -/
theorem stepFrame {b b' : Buffer} {y x0 : Nat} {c : Cell}
    (h : b' = b ∨ b' = setCell b y x0 c) :
    b'.length = b.length ∧
    (∀ y', y' ≠ y → b'.getD y' [] = b.getD y' []) ∧
    (b'.getD y []).length = (b.getD y []).length ∧
    (∀ x', x' ≠ x0 →
      (b'.getD y []).getD x' blankCell = (b.getD y []).getD x' blankCell) := by
  rcases h with h | h <;> subst h
  · exact ⟨rfl, fun _ _ => rfl, rfl, fun _ _ => rfl⟩
  · exact ⟨setCell_length b y x0 c,
      fun y' hy' => setCell_row_ne b y x0 c y' hy',
      setCell_rowlen b y x0 c,
      fun x' hx' => setCell_col_ne b y x0 c x' hx'⟩

theorem putchr_frame (maxW maxH x y : Nat) (content : List Nat) (style : Nat)
    (b : Buffer) :
    (kiloc_putchr maxW maxH x y content style b).length = b.length ∧
    (∀ y', y' ≠ y →
      (kiloc_putchr maxW maxH x y content style b).getD y' [] = b.getD y' []) ∧
    ((kiloc_putchr maxW maxH x y content style b).getD y []).length
      = (b.getD y []).length ∧
    (∀ x', x' ≠ x →
      ((kiloc_putchr maxW maxH x y content style b).getD y []).getD x' blankCell
        = (b.getD y []).getD x' blankCell) := by
  rcases putchr_cases maxW maxH x y content style b with h | ⟨bytes, h⟩
  · rw [h]
    exact ⟨rfl, fun _ _ => rfl, rfl, fun _ _ => rfl⟩
  · exact stepFrame (Or.inr h)

theorem contWrite_frame (y x : Nat) (style : Nat) (b : Buffer) :
    (contWrite y x style b).1.length = b.length ∧
    (∀ y', y' ≠ y →
      (contWrite y x style b).1.getD y' [] = b.getD y' []) ∧
    ((contWrite y x style b).1.getD y []).length = (b.getD y []).length ∧
    (∀ x', x' ≠ x →
      ((contWrite y x style b).1.getD y []).getD x' blankCell
        = (b.getD y []).getD x' blankCell) := by
  rcases contWrite_cases y x style b with h | h
  · rw [h]
    exact ⟨rfl, fun _ _ => rfl, rfl, fun _ _ => rfl⟩
  · exact stepFrame (Or.inr h)

/-- Frame facts for the `kiloc_putstr` loop: the buffer keeps its shape,
rows other than `y` are untouched, and in row `y` the columns left of the
starting column are untouched. -/
theorem putstrAux_frame (cw : List Nat → Nat) (maxW maxH y style : Nat) :
    ∀ (curX : Nat) (s : List Nat) (b : Buffer),
      FrameOK cw maxW maxH y style curX s b := by
  intro curX s b
  induction curX, s, b using putstrAux.induct cw maxW maxH y style with
  | case1 curX b =>
    unfold FrameOK
    simp [putstrAux]
  | case2 curX b hd tl h1 len hl0 =>
    have hl0' : _kiloc_get_utf8_len (hd :: tl) = 0 := hl0
    unfold FrameOK
    rw [putstrAux]
    simp [h1, hl0']
  | case3 curX b hd tl h1 len hl width h3 =>
    have hl' : ¬ _kiloc_get_utf8_len (hd :: tl) = 0 := hl
    have h3' : maxW < curX + cw ((hd :: tl).take (_kiloc_get_utf8_len (hd :: tl))) := h3
    unfold FrameOK
    rw [putstrAux]
    simp [h1, hl', h3']
  | case4 curX b hd tl h1 b3 oob b4 oob2 len hlen width h3 b1 heq1 heq2 ih =>
    have hlen' : ¬ _kiloc_get_utf8_len (hd :: tl) = 0 := hlen
    have h3' : ¬ maxW < curX + cw ((hd :: tl).take (_kiloc_get_utf8_len (hd :: tl))) := h3
    have heq1' : (if 1 < cw ((hd :: tl).take (_kiloc_get_utf8_len (hd :: tl))) then
        contWrite y (curX + 1) style (kiloc_putchr maxW maxH curX y (hd :: tl) style b)
      else (kiloc_putchr maxW maxH curX y (hd :: tl) style b, false)) = (b3, oob) := heq1
    have heq2' : putstrAux cw maxW maxH y style
        (curX + cw ((hd :: tl).take (_kiloc_get_utf8_len (hd :: tl))))
        ((hd :: tl).drop (_kiloc_get_utf8_len (hd :: tl))) b3 = (b4, oob2) := heq2
    have ih' : FrameOK cw maxW maxH y style
        (curX + cw ((hd :: tl).take (_kiloc_get_utf8_len (hd :: tl))))
        ((hd :: tl).drop (_kiloc_get_utf8_len (hd :: tl))) b3 := ih
    unfold FrameOK at ih' ⊢
    rw [heq2'] at ih'
    obtain ⟨ihl, ihr, ihrl, ihc⟩ := ih'
    obtain ⟨p1, p2, p3, p4⟩ :=
      putchr_frame maxW maxH curX y (hd :: tl) style b
    have hb3 : b3.length = (kiloc_putchr maxW maxH curX y (hd :: tl) style b).length ∧
        (∀ y', y' ≠ y → b3.getD y' []
          = (kiloc_putchr maxW maxH curX y (hd :: tl) style b).getD y' []) ∧
        (b3.getD y []).length
          = ((kiloc_putchr maxW maxH curX y (hd :: tl) style b).getD y []).length ∧
        (∀ x', x' ≠ curX + 1 → (b3.getD y []).getD x' blankCell
          = ((kiloc_putchr maxW maxH curX y (hd :: tl) style b).getD y []).getD x'
              blankCell) := by
      by_cases hw : 1 < cw ((hd :: tl).take (_kiloc_get_utf8_len (hd :: tl)))
      · rw [if_pos hw] at heq1'
        have hfst : b3 = (contWrite y (curX + 1) style
            (kiloc_putchr maxW maxH curX y (hd :: tl) style b)).1 := by
          rw [heq1']
        rw [hfst]
        exact contWrite_frame y (curX + 1) style _
      · rw [if_neg hw] at heq1'
        have hb : b3 = kiloc_putchr maxW maxH curX y (hd :: tl) style b :=
          (congrArg Prod.fst heq1').symm
        rw [hb]
        exact ⟨rfl, fun _ _ => rfl, rfl, fun _ _ => rfl⟩
    obtain ⟨q1, q2, q3, q4⟩ := hb3
    have hev : putstrAux cw maxW maxH y style curX (hd :: tl) b
        = (b4, oob || oob2) := by
      rw [putstrAux]
      simp [h1, hlen', h3', heq1', heq2']
    rw [hev]
    refine ⟨?_, ?_, ?_, ?_⟩
    · simpa using ihl.trans (q1.trans p1)
    · intro y' hy'
      simpa using (ihr y' hy').trans ((q2 y' hy').trans (p2 y' hy'))
    · simpa using ihrl.trans (q3.trans p3)
    · intro c hc
      have hcw : c < curX + cw ((hd :: tl).take (_kiloc_get_utf8_len (hd :: tl))) := by
        omega
      have hc1 : c ≠ curX := by omega
      have hc2 : c ≠ curX + 1 := by omega
      simpa using (ihc c hcw).trans ((q4 c hc2).trans (p4 c hc1))
  | case5 curX b hd tl h1 =>
    unfold FrameOK
    rw [putstrAux]
    simp [h1]

theorem putchr_WF (maxW maxH x y : Nat) (content : List Nat) (style : Nat)
    (b : Buffer) (w : Nat) (h : ∀ r ∈ b, r.length = w) :
    (kiloc_putchr maxW maxH x y content style b).length = b.length ∧
    ∀ r ∈ kiloc_putchr maxW maxH x y content style b, r.length = w := by
  rcases putchr_cases maxW maxH x y content style b with h' | ⟨bytes, h'⟩ <;>
    rw [h']
  · exact ⟨rfl, h⟩
  · exact ⟨setCell_length b y x _, setCell_WF b y x _ w h⟩

theorem contWrite_WF (y x : Nat) (style : Nat) (b : Buffer) (w : Nat)
    (h : ∀ r ∈ b, r.length = w) :
    (contWrite y x style b).1.length = b.length ∧
    ∀ r ∈ (contWrite y x style b).1, r.length = w := by
  rcases contWrite_cases y x style b with h' | h' <;> rw [h']
  · exact ⟨rfl, h⟩
  · exact ⟨setCell_length b y x _, setCell_WF b y x _ w h⟩

/-- When the target cell exists, the raw continuation write succeeds and is
in bounds. -/
theorem contWrite_inbounds (y x : Nat) (style : Nat) (b : Buffer)
    (hy : y < b.length) (hx : x < (b.getD y []).length) :
    contWrite y x style b = (setCell b y x ⟨[], style⟩, false) := by
  unfold contWrite
  rw [dif_pos hy, if_pos]
  have : b.get ⟨y, hy⟩ = b.getD y [] := by
    simp [List.getD, List.getElem?_eq_getElem hy]
  rw [this]
  exact hx

/-- The `kiloc_putstr` loop performs no out-of-bounds raw buffer access when
the target row is inside the canvas and the buffer has the canvas shape. -/
theorem putstrAux_oob (cw : List Nat → Nat) (maxW maxH y style : Nat) :
    ∀ (curX : Nat) (s : List Nat) (b : Buffer),
      b.length = maxH → (∀ r ∈ b, r.length = maxW) → y < maxH →
      (putstrAux cw maxW maxH y style curX s b).2 = false := by
  intro curX s b
  induction curX, s, b using putstrAux.induct cw maxW maxH y style with
  | case1 curX b =>
    intro _ _ _
    simp [putstrAux]
  | case2 curX b hd tl h1 len hl0 =>
    intro _ _ _
    have hl0' : _kiloc_get_utf8_len (hd :: tl) = 0 := hl0
    rw [putstrAux]
    simp [h1, hl0']
  | case3 curX b hd tl h1 len hl width h3 =>
    intro _ _ _
    have hl' : ¬ _kiloc_get_utf8_len (hd :: tl) = 0 := hl
    have h3' : maxW < curX + cw ((hd :: tl).take (_kiloc_get_utf8_len (hd :: tl))) := h3
    rw [putstrAux]
    simp [h1, hl', h3']
  | case4 curX b hd tl h1 b3 oob b4 oob2 len hlen width h3 b1 heq1 heq2 ih =>
    intro hlenb hWF hy
    have hlen' : ¬ _kiloc_get_utf8_len (hd :: tl) = 0 := hlen
    have h3' : ¬ maxW < curX + cw ((hd :: tl).take (_kiloc_get_utf8_len (hd :: tl))) := h3
    have heq1' : (if 1 < cw ((hd :: tl).take (_kiloc_get_utf8_len (hd :: tl))) then
        contWrite y (curX + 1) style (kiloc_putchr maxW maxH curX y (hd :: tl) style b)
      else (kiloc_putchr maxW maxH curX y (hd :: tl) style b, false)) = (b3, oob) := heq1
    have heq2' : putstrAux cw maxW maxH y style
        (curX + cw ((hd :: tl).take (_kiloc_get_utf8_len (hd :: tl))))
        ((hd :: tl).drop (_kiloc_get_utf8_len (hd :: tl))) b3 = (b4, oob2) := heq2
    have ih' : b3.length = maxH → (∀ r ∈ b3, r.length = maxW) → y < maxH →
        (putstrAux cw maxW maxH y style
          (curX + cw ((hd :: tl).take (_kiloc_get_utf8_len (hd :: tl))))
          ((hd :: tl).drop (_kiloc_get_utf8_len (hd :: tl))) b3).2 = false := ih
    obtain ⟨pl, pw⟩ := putchr_WF maxW maxH curX y (hd :: tl) style b maxW hWF
    have hstep : oob = false ∧ b3.length = maxH ∧ ∀ r ∈ b3, r.length = maxW := by
      by_cases hw : 1 < cw ((hd :: tl).take (_kiloc_get_utf8_len (hd :: tl)))
      · rw [if_pos hw] at heq1'
        set b1' := kiloc_putchr maxW maxH curX y (hd :: tl) style b with hb1
        have hy1 : y < b1'.length := by omega
        have hx1 : curX + 1 < (b1'.getD y []).length := by
          have hrow : (b1'.getD y []).length = maxW := by
            have : b1'.getD y [] ∈ b1' := by
              simp [List.getD, List.getElem?_eq_getElem hy1, List.getElem_mem]
            exact pw _ this
          omega
        rw [contWrite_inbounds y (curX + 1) style b1' hy1 hx1] at heq1'
        obtain ⟨hb3, hoob⟩ := Prod.mk.injEq .. ▸ heq1'
        refine ⟨hoob.symm, ?_, ?_⟩
        · rw [← hb3, setCell_length]; omega
        · rw [← hb3]
          exact setCell_WF b1' y (curX + 1) _ maxW pw
      · rw [if_neg hw] at heq1'
        obtain ⟨hb3, hoob⟩ := Prod.mk.injEq .. ▸ heq1'
        refine ⟨hoob.symm, ?_, ?_⟩
        · rw [← hb3]; omega
        · rw [← hb3]; exact pw
    obtain ⟨ho, hl3, hw3⟩ := hstep
    have hoob2 : oob2 = false := by
      have := ih' hl3 hw3 hy
      rw [heq2'] at this
      exact this
    have hev : (putstrAux cw maxW maxH y style curX (hd :: tl) b).2
        = (oob || oob2) := by
      rw [putstrAux]
      simp [h1, hlen', h3', heq1', heq2']
    rw [hev, ho, hoob2]
    rfl
  | case5 curX b hd tl h1 =>
    intro _ _ _
    rw [putstrAux]
    simp [h1]

theorem utf8len_le_four (s : List Nat) : _kiloc_get_utf8_len s ≤ 4 := by
  cases s with
  | nil => simp [_kiloc_get_utf8_len]
  | cons b0 rest =>
    simp only [_kiloc_get_utf8_len]
    repeat' split
    all_goals omega

/-- Inside the canvas, `kiloc_putchr` with a well-formed glyph writes the
glyph's first `len` bytes and the style into the cell at `(x, y)`. -/
theorem putchr_writes (maxW maxH x y : Nat) (content : List Nat) (style : Nat)
    (b : Buffer) (hx : x < maxW) (hy : y < maxH)
    (hlen : _kiloc_get_utf8_len content ≠ 0) :
    kiloc_putchr maxW maxH x y content style b
      = setCell b y x ⟨content.take (_kiloc_get_utf8_len content), style⟩ := by
  have h4 : _kiloc_get_utf8_len content < 5 :=
    Nat.lt_succ_of_le (utf8len_le_four content)
  unfold kiloc_putchr
  rw [if_neg (by omega : ¬(x ≥ maxW ∨ y ≥ maxH))]
  show (if _kiloc_get_utf8_len content = 0 then b
    else setCell b y x ⟨if _kiloc_get_utf8_len content < 5 then
      content.take (_kiloc_get_utf8_len content) else content.take 4, style⟩)
    = _
  rw [if_neg hlen, if_pos h4]

/-- C4: `kiloc_putstr` iterates UTF-8 scalars left to right from column `x`
of row `y` only: it performs no out-of-bounds access, keeps the buffer
shape, never touches any other row (never wraps), and never touches columns
left of `x`; and, concretely, writing the two-glyph width-1 string "AB"
starting at `x = max_w − 1` writes only 'A' and leaves every other cell of
the canvas unchanged. -/
theorem putstr_clips (cw : List Nat → Nat) (maxW maxH x y : Nat)
    (content : List Nat) (style : Nat) (b : Buffer)
    (hb : b.length = maxH) (hW : ∀ r ∈ b, r.length = maxW) (hy : y < maxH) :
    (kiloc_putstr cw maxW maxH x y content style b).2 = false ∧
    (kiloc_putstr cw maxW maxH x y content style b).1.length = b.length ∧
    (∀ y', y' ≠ y →
      (kiloc_putstr cw maxW maxH x y content style b).1.getD y' []
        = b.getD y' []) ∧
    ((kiloc_putstr cw maxW maxH x y content style b).1.getD y []).length
      = (b.getD y []).length ∧
    (∀ c, c < x →
      cellAt (kiloc_putstr cw maxW maxH x y content style b).1 y c
        = cellAt b y c) ∧
    kiloc_putstr (fun _ => 1) 3 2 2 0 [65, 66] 0 (blankBuffer 3 2)
      = ([[blankCell, blankCell, ⟨[65], 0⟩], [blankCell, blankCell, blankCell]],
          false) := by
  obtain ⟨f1, f2, f3, f4⟩ := putstrAux_frame cw maxW maxH y style x content b
  refine ⟨putstrAux_oob cw maxW maxH y style x content b hb hW hy,
    f1, f2, f3, fun c hc => f4 c hc, ?_⟩
  simp [kiloc_putstr, putstrAux, _kiloc_get_utf8_len, kiloc_putchr, setCell,
    blankBuffer, blankCell]

/-- Witness for C4: writing "kilo" from column 1 of row 0 of a 3 × 2 canvas
leaves row 1, column 0 and the buffer shape untouched, with no out-of-bounds
access. -/
theorem putstr_clips_witness :
    (kiloc_putstr (fun _ => 1) 3 2 1 0 [107, 105, 108, 111] 9
        (blankBuffer 3 2)).2 = false ∧
    (kiloc_putstr (fun _ => 1) 3 2 1 0 [107, 105, 108, 111] 9
        (blankBuffer 3 2)).1.getD 1 [] = (blankBuffer 3 2).getD 1 [] ∧
    cellAt (kiloc_putstr (fun _ => 1) 3 2 1 0 [107, 105, 108, 111] 9
        (blankBuffer 3 2)).1 0 0 = cellAt (blankBuffer 3 2) 0 0 := by
  have h := putstr_clips (fun _ => 1) 3 2 1 0 [107, 105, 108, 111] 9
    (blankBuffer 3 2) (by decide) (by decide) (by decide)
  exact ⟨h.1, h.2.2.1 1 (by decide), h.2.2.2.2.1 0 (by decide)⟩

/-- C3: a width-2 glyph written by `kiloc_putstr` at `(x, y)` with style `S`,
with `y < max_h` and the glyph fitting (`x + 1 < max_w`), occupies exactly
the cell `(x, y)` (its UTF-8 bytes, style `S`), and the cell `(x + 1, y)`
becomes an empty-content continuation cell carrying the same style `S`. -/
theorem putstr_wide_glyph (cw : List Nat → Nat) (maxW maxH x y style : Nat)
    (s : List Nat) (b : Buffer)
    (hb : b.length = maxH) (hW : ∀ r ∈ b, r.length = maxW) (hy : y < maxH)
    (hlen : _kiloc_get_utf8_len s ≠ 0)
    (hwide : cw (s.take (_kiloc_get_utf8_len s)) = 2)
    (hfit : x + 1 < maxW) :
    cellAt (putstrAux cw maxW maxH y style x s b).1 y x
      = ⟨s.take (_kiloc_get_utf8_len s), style⟩ ∧
    cellAt (putstrAux cw maxW maxH y style x s b).1 y (x + 1)
      = ⟨[], style⟩ := by
  cases s with
  | nil => exact absurd rfl hlen
  | cons hd tl =>
    have hx : x < maxW := by omega
    have hrowb : (b.getD y []).length = maxW := by
      have : b.getD y [] ∈ b := by
        have hyb : y < b.length := by omega
        simp [List.getD, List.getElem?_eq_getElem hyb, List.getElem_mem]
      exact hW _ this
    have hput : kiloc_putchr maxW maxH x y (hd :: tl) style b
        = setCell b y x ⟨(hd :: tl).take (_kiloc_get_utf8_len (hd :: tl)), style⟩ :=
      putchr_writes maxW maxH x y (hd :: tl) style b hx (by omega) hlen
    set b1 := setCell b y x ⟨(hd :: tl).take (_kiloc_get_utf8_len (hd :: tl)), style⟩ with hb1
    have hb1l : b1.length = b.length := setCell_length b y x _
    have hb1row : (b1.getD y []).length = maxW := by
      rw [hb1, setCell_rowlen, hrowb]
    have hcont : contWrite y (x + 1) style b1
        = (setCell b1 y (x + 1) ⟨[], style⟩, false) :=
      contWrite_inbounds y (x + 1) style b1 (by omega) (by omega)
    set b2 := setCell b1 y (x + 1) ⟨[], style⟩ with hb2
    have hev : (putstrAux cw maxW maxH y style x (hd :: tl) b).1
        = (putstrAux cw maxW maxH y style (x + 2)
            ((hd :: tl).drop (_kiloc_get_utf8_len (hd :: tl))) b2).1 := by
      rw [putstrAux]
      simp only [hx, if_true, dif_neg hlen, hwide, hput, hcont]
      rw [if_neg (by omega), if_pos (by omega)]
    obtain ⟨g1, g2, g3, g4⟩ := putstrAux_frame cw maxW maxH y style (x + 2)
      ((hd :: tl).drop (_kiloc_get_utf8_len (hd :: tl))) b2
    constructor
    · rw [cellAt, hev, g4 x (by omega), hb2,
        setCell_col_ne b1 y (x + 1) _ x (by omega), hb1,
        setCell_get b y x _ (by omega) (by omega)]
    · rw [cellAt, hev, g4 (x + 1) (by omega), hb2,
        setCell_get b1 y (x + 1) _ (by omega) (by omega)]

/-- Witness for C3: the CJK glyph `0xE5 0xAE 0xBD` (width 2) written at
`(2, 1)` of a 4 × 2 canvas with style 5 fills cell `(2, 1)` and makes
`(3, 1)` an empty continuation cell with style 5. -/
theorem putstr_wide_glyph_witness :
    cellAt (putstrAux (fun g => if g.length = 3 then 2 else 1) 4 2 1 5 2
        [0xE5, 0xAE, 0xBD] (blankBuffer 4 2)).1 1 2
      = ⟨[0xE5, 0xAE, 0xBD], 5⟩ ∧
    cellAt (putstrAux (fun g => if g.length = 3 then 2 else 1) 4 2 1 5 2
        [0xE5, 0xAE, 0xBD] (blankBuffer 4 2)).1 1 3 = ⟨[], 5⟩ := by
  have h := putstr_wide_glyph (fun g => if g.length = 3 then 2 else 1) 4 2 2 1 5
    [0xE5, 0xAE, 0xBD] (blankBuffer 4 2) (by decide) (by decide) (by decide)
    (by decide) (by decide) (by decide)
  simpa using h

/-- C10 fails on the code: `kiloc_putstr` called with `y = max_h` (row just
outside the canvas) and a width-2 glyph that fits horizontally performs the
raw continuation-cell write `b_buffer[y][cur_x + 1]` without any check of
`y < max_h` — an out-of-bounds access (`kiloc_putchr` clips the main cell,
but the continuation write at src/kiloc.c:227 is unguarded). -/
theorem putstr_wide_row_overflow :
    (kiloc_putstr (fun g => if g.length = 3 then 2 else 1) 4 2 0 2
      [0xE5, 0xAE, 0xBD] 0 (blankBuffer 4 2)).2 = true := by
  have hl : _kiloc_get_utf8_len [0xE5, 0xAE, 0xBD] = 3 := by decide
  simp [kiloc_putstr, putstrAux, hl, kiloc_putchr, contWrite, blankBuffer]

/-- C1 fails on the code: `kiloc_addcmp` performs no duplicate check.
Registering component id 1 a second time (id 1 is already registered in
`dupSt`) does not fail: it returns a state, overwrites the registry slot 1,
and appends a second child 1 to the root's children list — the tree is
modified, not left unmodified. -/
theorem addcmp_duplicate_modifies :
    ((kiloc_addcmp ⟨1, 0, CmpType.container⟩ dupSt).map
        (fun s => s.childIds 0)) = some [1, 1] ∧
    ((kiloc_addcmp ⟨1, 0, CmpType.container⟩ dupSt).map
        (fun s => s.cids 1)) = some (some ⟨1, 0, CmpType.container⟩) ∧
    dupSt.childIds 0 = [1] ∧
    dupSt.cids 1 = some ⟨1, 0, CmpType.text⟩ := by
  refine ⟨?_, ?_, rfl, rfl⟩ <;> rfl

/-- C1 amended: `kiloc_addcmp` validates nothing. It unconditionally stores
the node at registry slot `cid` (overwriting any previous registration).
When `pid > 0` and slot `pid` is empty (and `pid ≠ cid`), it crashes on a
NULL parent pointer instead of reporting an error; in every other case —
including a duplicate `cid` — it succeeds, modifying the registry and, for a
non-root node, appending the node to its parent's children list. -/
theorem addcmp_no_validation (c : KCmp) (s : TreeSt) :
    (c.pid > 0 → c.pid ≠ c.cid → s.cids c.pid = none →
      kiloc_addcmp c s = none) ∧
    ((c.pid = 0 ∨ c.pid = c.cid ∨ s.cids c.pid ≠ none) →
      ∃ s', kiloc_addcmp c s = some s' ∧
        s'.cids c.cid = some c ∧
        (∀ i, i ≠ c.cid → s'.cids i = s.cids i) ∧
        (c.cid ≠ 0 ∨ c.pid > 0 →
          s'.childIds (if c.pid > 0 then c.pid else 0)
            = s.childIds (if c.pid > 0 then c.pid else 0) ++ [c.cid]) ∧
        (c.cid = 0 → c.pid = 0 → ∀ i, s'.childIds i = s.childIds i)) := by
  unfold kiloc_addcmp
  by_cases hp : c.pid > 0
  · simp only [hp, if_true]
    by_cases hpc : c.pid = c.cid
    · constructor
      · intro _ hne _
        exact absurd hpc hne
      · intro _
        rw [show (if c.pid = c.cid then some c else s.cids c.pid) = some c
          from by rw [if_pos hpc]]
        refine ⟨_, rfl, ?_, ?_, ?_, ?_⟩
        · simp [addChild]
        · intro i hi
          simp [addChild, hi]
        · intro _
          simp [addChild, hp]
        · intro hc0 hp0
          omega
    · rw [show (if c.pid = c.cid then some c else s.cids c.pid) = s.cids c.pid
        from by rw [if_neg hpc]]
      constructor
      · intro _ _ hnone
        rw [hnone]
      · intro h
        rcases h with h | h | h
        · omega
        · exact absurd h hpc
        · rcases Option.ne_none_iff_exists.mp h with ⟨p, hpv⟩
          rw [← hpv]
          refine ⟨_, rfl, ?_, ?_, ?_, ?_⟩
          · simp [addChild]
          · intro i hi
            simp [addChild, hi]
          · intro _
            simp [addChild, hp]
          · intro hc0 hp0
            omega
  · have hp0 : c.pid = 0 := by omega
    simp only [hp, if_false]
    constructor
    · intro h
      exact h.elim
    · intro _
      by_cases hc : c.cid ≠ 0
      · rw [if_pos hc]
        refine ⟨_, rfl, ?_, ?_, ?_, ?_⟩
        · simp [addChild]
        · intro i hi
          simp [addChild, hi]
        · intro _
          simp [addChild, hp]
        · intro hc0 _
          exact absurd hc0 hc
      · rw [if_neg hc]
        push_neg at hc
        refine ⟨_, rfl, ?_, ?_, ?_, ?_⟩
        · simp
        · intro i hi
          simp [hi]
        · intro hor
          rcases hor with hor | hor
          · exact absurd hc hor
          · exact hor.elim
        · intro _ _ i
          rfl

/-- Witness for the amended C1 at the duplicate registration of id 1 in
`dupSt`. -/
theorem addcmp_no_validation_witness :
    ∃ s', kiloc_addcmp ⟨1, 0, CmpType.container⟩ dupSt = some s' ∧
      s'.cids 1 = some ⟨1, 0, CmpType.container⟩ ∧
      (∀ i, i ≠ 1 → s'.cids i = dupSt.cids i) ∧
      ((1 : Nat) ≠ 0 ∨ (0 : Nat) > 0 →
        s'.childIds (if (0 : Nat) > 0 then 0 else 0)
          = dupSt.childIds (if (0 : Nat) > 0 then 0 else 0) ++ [1]) ∧
      ((1 : Nat) = 0 → (0 : Nat) = 0 → ∀ i, s'.childIds i = dupSt.childIds i) :=
  (addcmp_no_validation ⟨1, 0, CmpType.container⟩ dupSt).2 (Or.inl rfl)

theorem diffRow_mem (y : Nat) :
    ∀ (x : Nat) (fr br : List Cell) (c : Nat), c < br.length → c < fr.length →
      fr.getD c blankCell ≠ br.getD c blankCell →
      (⟨y, x + c, br.getD c blankCell⟩ : ChangeRec) ∈ (diffRow y x fr br).1 := by
  intro x fr
  induction fr generalizing x with
  | nil =>
    intro br c _ hcf _
    simp at hcf
  | cons fc fs ih =>
    intro br c hcb hcf hne
    cases br with
    | nil => simp at hcb
    | cons bc bs =>
      cases c with
      | zero =>
        simp only [List.getD_cons_zero] at hne
        simp only [diffRow, Nat.add_zero, List.getD_cons_zero]
        rw [if_pos hne]
        exact List.Mem.head _
      | succ c2 =>
        simp only [List.getD_cons_succ] at hne ⊢
        have hmem := ih (x + 1) bs c2 (by simpa using hcb) (by simpa using hcf) hne
        have hx : x + (c2 + 1) = (x + 1) + c2 := by omega
        rw [hx]
        simp only [diffRow]
        split
        · exact List.Mem.tail _ hmem
        · exact hmem

theorem diffBuf_mem :
    ∀ (yo : Nat) (f b : Buffer) (y x : Nat), y < b.length → y < f.length →
      x < (b.getD y []).length → x < (f.getD y []).length →
      (f.getD y []).getD x blankCell ≠ (b.getD y []).getD x blankCell →
      (⟨yo + y, x, (b.getD y []).getD x blankCell⟩ : ChangeRec)
        ∈ (diffBuf yo f b).1 := by
  intro yo f
  induction f generalizing yo with
  | nil =>
    intro b y x _ hyf
    simp at hyf
  | cons fr fs ih =>
    intro b y x hyb hyf hxb hxf hne
    cases b with
    | nil => simp at hyb
    | cons br bs =>
      cases y with
      | zero =>
        simp only [List.getD_cons_zero] at hne hxb hxf ⊢
        simp only [diffBuf, Nat.add_zero]
        exact List.mem_append_left _
          (by simpa using diffRow_mem yo 0 fr br x hxb hxf hne)
      | succ y2 =>
        simp only [List.getD_cons_succ] at hne hxb hxf ⊢
        have hmem := ih (yo + 1) bs y2 x (by simpa using hyb)
          (by simpa using hyf) hxb hxf hne
        have hy : yo + (y2 + 1) = (yo + 1) + y2 := by omega
        rw [hy]
        simp only [diffBuf]
        exact List.mem_append_right _ hmem

theorem forall₂_row_len {f b : Buffer}
    (h : List.Forall₂ (fun fr br => fr.length = br.length) f b) :
    ∀ y, (f.getD y []).length = (b.getD y []).length := by
  induction h with
  | nil => intro y; rfl
  | cons hfb _ ih =>
    intro y
    cases y with
    | zero => simpa using hfb
    | succ y2 => simpa using ih y2

/-- After a detected size change, every in-canvas front-buffer cell is the
sentinel cell. -/
theorem resizePhase_cellAt (terW terH : Nat) (ws : Option (Nat × Nat))
    (front : Buffer) (hch : (check_tersize terW terH ws).2 = true) :
    ∀ y x, y < front.length → x < (front.getD y []).length →
      cellAt (renderResizePhase terW terH ws front) y x = sentinelCell := by
  intro y x hy hx
  unfold renderResizePhase
  rw [if_pos hch]
  have hrow : (front.map (fun row => row.map (fun _ => sentinelCell))).getD y []
      = (front.getD y []).map (fun _ => sentinelCell) := by
    simp [List.getD, List.getElem?_eq_getElem hy,
      List.getElem?_eq_getElem (by simpa using hy :
        y < (front.map (fun row => row.map (fun _ => sentinelCell))).length)]
  rw [cellAt, hrow]
  have hsome : ((front.getD y []).map (fun _ => sentinelCell))[x]?
      = some sentinelCell := by
    rw [List.getElem?_map, List.getElem?_eq_getElem hx]
    rfl
  rw [List.getD_eq_getElem?_getD, hsome]
  rfl

/-- C8 amended: a detected terminal size change makes `kiloc_render` set
every front-buffer cell to `sentinelCell` (empty content, style
`2 ^ 64 − 1`), and the subsequent diff then reports as changed every canvas
cell whose back-buffer cell differs from `sentinelCell` — in particular
every cell holding a blank or a glyph (nonempty content). A back-buffer
cell CAN equal the sentinel (a wide-glyph continuation cell with style
`2 ^ 64 − 1`), and such a cell is not reported. -/
theorem resize_forces_redraw (terW terH : Nat) (ws : Option (Nat × Nat))
    (front back : Buffer)
    (hch : (check_tersize terW terH ws).2 = true)
    (hshape : List.Forall₂ (fun fr br => fr.length = br.length)
      (renderResizePhase terW terH ws front) back) :
    (∀ y x, y < front.length → x < (front.getD y []).length →
      cellAt (renderResizePhase terW terH ws front) y x = sentinelCell) ∧
    (∀ y x, y < back.length → x < (back.getD y []).length →
      cellAt back y x ≠ sentinelCell →
      (⟨y, x, cellAt back y x⟩ : ChangeRec)
        ∈ (diffBuf 0 (renderResizePhase terW terH ws front) back).1) := by
  refine ⟨resizePhase_cellAt terW terH ws front hch, ?_⟩
  intro y x hy hx hne
  have hlen := List.Forall₂.length_eq hshape
  have hrow := forall₂_row_len hshape y
  have h1 : (renderResizePhase terW terH ws front).length = front.length := by
    unfold renderResizePhase
    rw [if_pos hch]
    simp
  have hyf : y < front.length := by omega
  have hyr : y < (renderResizePhase terW terH ws front).length := by omega
  have hxr : x < ((renderResizePhase terW terH ws front).getD y []).length := by
    omega
  have h2 : ((renderResizePhase terW terH ws front).getD y []).length
      = (front.getD y []).length := by
    unfold renderResizePhase
    rw [if_pos hch]
    have hmapget : (front.map (fun row => row.map (fun _ => sentinelCell))).getD y []
        = (front.getD y []).map (fun _ => sentinelCell) := by
      simp [List.getD, List.getElem?_eq_getElem hyf,
        List.getElem?_eq_getElem (show
          y < (front.map (fun row => row.map (fun _ => sentinelCell))).length
          from by simpa using hyf)]
    rw [hmapget]
    simp
  have hxf2 : x < (front.getD y []).length := by omega
  have hsent := resizePhase_cellAt terW terH ws front hch y x hyf hxf2
  have hnecell : ((renderResizePhase terW terH ws front).getD y []).getD x blankCell
      ≠ (back.getD y []).getD x blankCell := by
    rw [show ((renderResizePhase terW terH ws front).getD y []).getD x blankCell
      = cellAt (renderResizePhase terW terH ws front) y x from rfl, hsent]
    intro hcontra
    exact hne hcontra.symm
  have hm := diffBuf_mem 0 (renderResizePhase terW terH ws front) back y x
    hy hyr hx hxr hnecell
  simpa [cellAt] using hm

/-- Witness for the amended C8 on a 2 × 1 canvas: both back cells (a glyph
and a blank) are reported after a resize. -/
theorem resize_forces_redraw_witness :
    cellAt (renderResizePhase 80 25 (some (80, 24)) (blankBuffer 2 1)) 0 0
      = sentinelCell ∧
    (⟨0, 0, ⟨[65], 7⟩⟩ : ChangeRec)
      ∈ (diffBuf 0 (renderResizePhase 80 25 (some (80, 24)) (blankBuffer 2 1))
          [[⟨[65], 7⟩, blankCell]]).1 ∧
    (⟨0, 1, blankCell⟩ : ChangeRec)
      ∈ (diffBuf 0 (renderResizePhase 80 25 (some (80, 24)) (blankBuffer 2 1))
          [[⟨[65], 7⟩, blankCell]]).1 := by
  have h := resize_forces_redraw 80 25 (some (80, 24)) (blankBuffer 2 1)
    [[⟨[65], 7⟩, blankCell]] (by decide) (by decide)
  refine ⟨h.1 0 0 (by decide) (by decide), ?_, ?_⟩
  · have := h.2 0 0 (by decide) (by decide) (by decide)
    simpa [cellAt, blankCell] using this
  · have := h.2 0 1 (by decide) (by decide) (by decide)
    simpa [cellAt, blankCell] using this

/-- C8 fails as literally stated: a back-buffer cell CAN carry the sentinel
style `2 ^ 64 − 1`. Writing a width-2 glyph with style `(uint64_t)-1` via
`kiloc_putstr` makes the continuation cell equal to the sentinel cell, and
after a resize the diff then emits a record for the glyph cell only — the
continuation cell `(1, 0)` of the canvas is NOT reported as changed. -/
theorem resize_sentinel_escape :
    (putstrAux (fun g => if g.length = 3 then 2 else 1) 2 1 0 (2 ^ 64 - 1) 0
        [0xE5, 0xAE, 0xBD] (blankBuffer 2 1)).1
      = [[⟨[0xE5, 0xAE, 0xBD], 2 ^ 64 - 1⟩, ⟨[], 2 ^ 64 - 1⟩]] ∧
    (check_tersize 80 25 (some (80, 24))).2 = true ∧
    (diffBuf 0 (renderResizePhase 80 25 (some (80, 24)) (blankBuffer 2 1))
        [[⟨[0xE5, 0xAE, 0xBD], 2 ^ 64 - 1⟩, ⟨[], 2 ^ 64 - 1⟩]]).1
      = [⟨0, 0, ⟨[0xE5, 0xAE, 0xBD], 2 ^ 64 - 1⟩⟩] := by
  have hl : _kiloc_get_utf8_len [0xE5, 0xAE, 0xBD] = 3 := by decide
  refine ⟨?_, by decide, by decide⟩
  simp [putstrAux, hl, kiloc_putchr, contWrite, setCell, blankBuffer, blankCell]

mutual

theorem cmpRender_frame (cw : List Nat → Nat) (maxW maxH : Nat) (t : KNode)
    (s : RState) (i : Nat) (h : i ∉ allCids t) :
    (cmpRender cw maxW maxH t s).abs i = s.abs i := by
  cases t with
  | node c p ty rx ry co st ch =>
    have hic : i ≠ c := by
      intro he
      exact h (by rw [allCids, he]; exact List.Mem.head _)
    have hich : i ∉ allCidsList ch := by
      intro he
      exact h (by rw [allCids]; exact List.Mem.tail _ he)
    cases ty with
    | root =>
      rw [cmpRender]
      exact cmpRenderList_frame cw maxW maxH ch s i hich
    | container =>
      rw [cmpRender]
      rw [cmpRenderList_frame cw maxW maxH ch _ i hich]
      simp [setAbs, hic]
    | text =>
      rw [cmpRender]
      simp [setAbs, hic]
    | box =>
      rw [cmpRender]

theorem cmpRenderList_frame (cw : List Nat → Nat) (maxW maxH : Nat)
    (l : List KNode) (s : RState) (i : Nat) (h : i ∉ allCidsList l) :
    (cmpRenderList cw maxW maxH l s).abs i = s.abs i := by
  cases l with
  | nil => rw [cmpRenderList]
  | cons t ts =>
    have h1 : i ∉ allCids t := by
      intro he
      exact h (by rw [allCidsList]; exact List.mem_append_left _ he)
    have h2 : i ∉ allCidsList ts := by
      intro he
      exact h (by rw [allCidsList]; exact List.mem_append_right _ he)
    rw [cmpRenderList]
    rw [cmpRenderList_frame cw maxW maxH ts _ i h2]
    exact cmpRender_frame cw maxW maxH t s i h1

end

mutual

theorem vNodes_cid_mem (t : KNode) :
    ∀ m ∈ vNodes t, m.cidOf ∈ allCids t := by
  cases t with
  | node c p ty rx ry co st ch =>
    intro m hm
    cases ty with
    | root =>
      rw [vNodes] at hm
      rw [allCids]
      exact List.Mem.tail _ (vNodesList_cid_mem ch m hm)
    | container =>
      rw [vNodes] at hm
      rw [allCids]
      cases hm with
      | head => exact List.Mem.head _
      | tail _ hm2 => exact List.Mem.tail _ (vNodesList_cid_mem ch m hm2)
    | text =>
      rw [vNodes] at hm
      cases hm with
      | head => rw [allCids]; exact List.Mem.head _
      | tail _ hm2 => cases hm2
    | box =>
      rw [vNodes] at hm
      cases hm

theorem vNodesList_cid_mem (l : List KNode) :
    ∀ m ∈ vNodesList l, m.cidOf ∈ allCidsList l := by
  cases l with
  | nil => intro m hm; rw [vNodesList] at hm; cases hm
  | cons t ts =>
    intro m hm
    rw [vNodesList] at hm
    rw [allCidsList]
    rcases List.mem_append.mp hm with hm2 | hm2
    · exact List.mem_append_left _ (vNodes_cid_mem t m hm2)
    · exact List.mem_append_right _ (vNodesList_cid_mem ts m hm2)

end

mutual

theorem vNodes_pid (t : KNode) (he : edgeOKb t = true) :
    ∀ m ∈ vNodes t, m.pidOf = t.pidOf ∨ m.pidOf ∈ allCids t := by
  cases t with
  | node c p ty rx ry co st ch =>
    intro m hm
    rw [edgeOKb] at he
    have hsub : ∀ m2, m2 ∈ vNodesList ch →
        m2.pidOf = c ∨ m2.pidOf ∈ allCidsList ch :=
      vNodesList_pid c ch he
    cases ty with
    | root =>
      rw [vNodes] at hm
      rcases hsub m hm with h2 | h2
      · exact Or.inr (by rw [allCids, h2]; exact List.Mem.head _)
      · exact Or.inr (by rw [allCids]; exact List.Mem.tail _ h2)
    | container =>
      rw [vNodes] at hm
      cases hm with
      | head => exact Or.inl rfl
      | tail _ hm2 =>
        rcases hsub m hm2 with h2 | h2
        · exact Or.inr (by rw [allCids, h2]; exact List.Mem.head _)
        · exact Or.inr (by rw [allCids]; exact List.Mem.tail _ h2)
    | text =>
      rw [vNodes] at hm
      cases hm with
      | head => exact Or.inl rfl
      | tail _ hm2 => cases hm2
    | box =>
      rw [vNodes] at hm
      cases hm

theorem vNodesList_pid (par : Nat) (l : List KNode)
    (he : edgeOKbList par l = true) :
    ∀ m ∈ vNodesList l, m.pidOf = par ∨ m.pidOf ∈ allCidsList l := by
  cases l with
  | nil => intro m hm; rw [vNodesList] at hm; cases hm
  | cons t ts =>
    rw [edgeOKbList, Bool.and_eq_true, Bool.and_eq_true] at he
    obtain ⟨⟨hpt, het⟩, hets⟩ := he
    have hpt' : t.pidOf = par := by simpa using hpt
    intro m hm
    rw [vNodesList] at hm
    rcases List.mem_append.mp hm with hm2 | hm2
    · rcases vNodes_pid t het m hm2 with h2 | h2
      · exact Or.inl (h2.trans hpt')
      · exact Or.inr (by rw [allCidsList]; exact List.mem_append_left _ h2)
    · rcases vNodesList_pid par ts hets m hm2 with h2 | h2
      · exact Or.inl h2
      · exact Or.inr (by rw [allCidsList]; exact List.mem_append_right _ h2)

end

mutual

/-- C7 (per subtree): after the walk of a subtree `t` whose ids are distinct,
whose parent/child ids are consistent and whose own parent id does not occur
inside it, every resolved node's final absolute position is its parent's
final absolute position plus its relative offset (when its pid is non-zero)
or its relative offset alone (when its pid is zero); parents are resolved
before their children, which is why the equation holds in the final state. -/
theorem cmpRender_resolves (cw : List Nat → Nat) (maxW maxH : Nat) (t : KNode)
    (s : RState) (hnd : (allCids t).Nodup) (he : edgeOKb t = true)
    (hp : t.tyOf = CmpType.root ∨ t.pidOf ∉ allCids t) :
    ∀ m ∈ vNodes t, (cmpRender cw maxW maxH t s).abs m.cidOf
      = resolveAbs (cmpRender cw maxW maxH t s) m.pidOf m.relOf.1 m.relOf.2 := by
  cases t with
  | node c p ty rx ry co st ch =>
    intro m hm
    rw [allCids, List.nodup_cons] at hnd
    obtain ⟨hcch, hndch⟩ := hnd
    rw [edgeOKb] at he
    cases ty with
    | root =>
      rw [vNodes] at hm
      rw [cmpRender]
      exact cmpRenderList_resolves cw maxW maxH c ch s hndch hcch he m hm
    | container =>
      have hp2 : p ∉ allCids (KNode.node c p CmpType.container rx ry co st ch) := by
        rcases hp with hty | hty
        · rw [KNode.tyOf] at hty
          cases hty
        · exact hty
      have hpc : p ≠ c := by
        intro h2
        exact hp2 (by rw [allCids, h2]; exact List.Mem.head _)
      have hpch : p ∉ allCidsList ch := by
        intro h2
        exact hp2 (by rw [allCids]; exact List.Mem.tail _ h2)
      rw [vNodes] at hm
      rw [cmpRender]
      cases hm with
      | head =>
        rw [KNode.cidOf, KNode.pidOf, KNode.relOf]
        set v := resolveAbs s p rx ry with hv
        rw [cmpRenderList_frame cw maxW maxH ch _ c hcch]
        have hXp : (cmpRenderList cw maxW maxH ch (setAbs c v s)).abs p
            = s.abs p := by
          rw [cmpRenderList_frame cw maxW maxH ch _ p hpch]
          simp [setAbs, hpc]
        have hac : (setAbs c v s).abs c = v := by
          simp [setAbs]
        rw [hac]
        simp only [resolveAbs]
        rw [hXp, hv]
        simp only [resolveAbs]
      | tail _ hm2 =>
        exact cmpRenderList_resolves cw maxW maxH c ch
          (setAbs c (resolveAbs s p rx ry) s) hndch hcch he m hm2
    | text =>
      have hp2 : p ∉ allCids (KNode.node c p CmpType.text rx ry co st ch) := by
        rcases hp with hty | hty
        · rw [KNode.tyOf] at hty
          cases hty
        · exact hty
      have hpc : p ≠ c := by
        intro h2
        exact hp2 (by rw [allCids, h2]; exact List.Mem.head _)
      rw [vNodes] at hm
      cases hm with
      | head =>
        rw [KNode.cidOf, KNode.pidOf, KNode.relOf]
        rw [cmpRender]
        simp only [resolveAbs, setAbs]
        simp [hpc]
      | tail _ hm2 => cases hm2
    | box =>
      rw [vNodes] at hm
      cases hm

theorem cmpRenderList_resolves (cw : List Nat → Nat) (maxW maxH : Nat)
    (par : Nat) (l : List KNode) (s : RState)
    (hnd : (allCidsList l).Nodup) (hpar : par ∉ allCidsList l)
    (he : edgeOKbList par l = true) :
    ∀ m ∈ vNodesList l, (cmpRenderList cw maxW maxH l s).abs m.cidOf
      = resolveAbs (cmpRenderList cw maxW maxH l s) m.pidOf m.relOf.1 m.relOf.2 := by
  cases l with
  | nil =>
    intro m hm
    rw [vNodesList] at hm
    cases hm
  | cons t ts =>
    intro m hm
    rw [allCidsList, List.nodup_append] at hnd
    obtain ⟨hndt, hndts, hdisj⟩ := hnd
    rw [edgeOKbList, Bool.and_eq_true, Bool.and_eq_true] at he
    obtain ⟨⟨hpt, het⟩, hets⟩ := he
    have hpt' : t.pidOf = par := by simpa using hpt
    have hpart : par ∉ allCids t := by
      intro h2
      exact hpar (by rw [allCidsList]; exact List.mem_append_left _ h2)
    have hparts : par ∉ allCidsList ts := by
      intro h2
      exact hpar (by rw [allCidsList]; exact List.mem_append_right _ h2)
    rw [vNodesList] at hm
    rw [cmpRenderList]
    rcases List.mem_append.mp hm with hm2 | hm2
    · have hrt := cmpRender_resolves cw maxW maxH t s hndt het
        (Or.inr (by rw [hpt']; exact hpart)) m hm2
      have hcid : m.cidOf ∉ allCidsList ts :=
        fun h2 => hdisj (vNodes_cid_mem t m hm2) h2
      have hpid : m.pidOf ∉ allCidsList ts := by
        rcases vNodes_pid t het m hm2 with h2 | h2
        · rw [h2, hpt']
          exact hparts
        · exact fun h3 => hdisj h2 h3
      rw [cmpRenderList_frame cw maxW maxH ts _ m.cidOf hcid, hrt]
      rw [resolveAbs, resolveAbs,
        cmpRenderList_frame cw maxW maxH ts _ m.pidOf hpid]
    · exact cmpRenderList_resolves cw maxW maxH par ts
        (cmpRender cw maxW maxH t s) hndts hparts hets m hm2

end

/-- C7: during the tree walk of `kiloc_render`, for every container or text
node resolved by the walk, if the node's parent identifier is non-zero its
resolved absolute position equals its parent's already-resolved absolute
position plus the node's own relative (x, y) (as `uint16_t` sums, modulo
`2 ^ 16`), and if the parent identifier is zero it equals the node's own
relative (x, y) taken as absolute; parents are resolved before their
children (top-down walk), which is why the equation holds with the parent's
final absolute position. -/
theorem render_layout_resolution (cw : List Nat → Nat) (maxW maxH : Nat)
    (t : KNode) (s : RState) (hnd : (allCids t).Nodup) (he : edgeOKb t = true)
    (hp : t.tyOf = CmpType.root ∨ t.pidOf ∉ allCids t) :
    ∀ m ∈ vNodes t,
      (cmpRender cw maxW maxH t s).abs m.cidOf =
        if m.pidOf > 0 then
          ((((cmpRender cw maxW maxH t s).abs m.pidOf).1 + m.relOf.1) % 2 ^ 16,
           (((cmpRender cw maxW maxH t s).abs m.pidOf).2 + m.relOf.2) % 2 ^ 16)
        else (m.relOf.1 % 2 ^ 16, m.relOf.2 % 2 ^ 16) := by
  intro m hm
  have h := cmpRender_resolves cw maxW maxH t s hnd he hp m hm
  rw [h, resolveAbs]

/-- Witness for C7 on `tEx`: the container resolves to (2, 3), its text
child to (2+4, 3+5) = (6, 8), and the root-level text to (7, 1). -/
theorem render_layout_resolution_witness :
    (cmpRender (fun _ => 1) 16 16 tEx ⟨fun _ => (0, 0), blankBuffer 16 16⟩).abs 1
      = (2, 3) ∧
    (cmpRender (fun _ => 1) 16 16 tEx ⟨fun _ => (0, 0), blankBuffer 16 16⟩).abs 2
      = (6, 8) ∧
    (cmpRender (fun _ => 1) 16 16 tEx ⟨fun _ => (0, 0), blankBuffer 16 16⟩).abs 3
      = (7, 1) := by
  have h := render_layout_resolution (fun _ => 1) 16 16 tEx
    ⟨fun _ => (0, 0), blankBuffer 16 16⟩ (by decide) (by decide)
    (Or.inl (by decide))
  refine ⟨?_, ?_, ?_⟩
  · exact (h (KNode.node 1 0 CmpType.container 2 3 [] 0
      [KNode.node 2 1 CmpType.text 4 5 [65] 0 []])
      (List.Mem.head _)).trans (by decide)
  · exact (h (KNode.node 2 1 CmpType.text 4 5 [65] 0 [])
      (List.Mem.tail _ (List.Mem.head _))).trans (by decide)
  · exact (h (KNode.node 3 0 CmpType.text 7 1 [66] 0 [])
      (List.Mem.tail _ (List.Mem.tail _ (List.Mem.head _)))).trans (by decide)

end Kiloc